import Mathlib

/-!
Shallow embedding of `src/RSA_GE.py` (unitaryfoundation/OSRE): the three
circuit-construction classes `RSA_GE`, `SemiclassicalQFT` and `TimesExpMod`
built on the external qualtran framework.  Composite-bloq construction is
modelled as a pure computation that records the emitted sub-bloq descriptors
(the trace), the diagnostic print lines, and the returned Python value;
the classical action of the emitted gates is modelled on natural numbers.
-/

/-- Descriptor of a sub-bloq added to a composite bloq by `bb.add`. -/
inductive BloqDesc where
  | cModMulK (bitsize k mod : Nat)
  | timesExpMod (g N e_bitsize x_bitsize : Nat)
  | semiclassicalQFT (n m i : Nat)
  | identity (n : Nat)
  deriving DecidableEq

/-- Diagnostic lines written by `print` inside `RSA_GE.build_composite_bloq`:
`"bitsize of" N "is" nb`, `"first component bitsize = " e1` and
`"second component bitsize = " e2`. -/
inductive PrintLine where
  | bitsizeOf (N nb : Nat)
  | firstComp (e1 : Nat)
  | secondComp (e2 : Nat)
  deriving DecidableEq

/-- Elements that may appear in a returned Python set literal: the string
`'m'` or a soquet (modelled by its numeric id). -/
inductive PyElem where
  | str (s : String)
  | soq (id : Nat)
  deriving DecidableEq

/-- Value returned by a `build_composite_bloq` body: either a Python dict from
register names to soquet ids, or a Python set literal. -/
inductive PyRet where
  | dict (entries : List (String × Nat))
  | set (elems : List PyElem)
  deriving DecidableEq

/-- Classical action of the framework bloq `CModMulK(QUInt(bitsize), k, mod)`:
on `(ctrl, x)` it returns `ctrl` unchanged and multiplies `x` by `k` modulo
`mod` exactly when the control is set and `x` lies in the modular domain. -/
def cModMulK (k mod ctrl x : Nat) : Nat × Nat :=
  (ctrl, if ctrl = 1 ∧ x < mod then x * k % mod else x)

/-- Big-endian split of a `w`-qubit unsigned register holding `e` into its list
of bits, index `0` being the most significant bit (`bb.split` on a `QUInt`). -/
def splitBE (w e : Nat) : List Nat :=
  (List.range w).map (fun j => e / 2 ^ (w - 1 - j) % 2)

/-- Big-endian join of a list of bits back into an unsigned register value
(`bb.join` with `dtype=QUInt`). -/
def joinBE (bits : List Nat) : Nat :=
  bits.foldl (fun acc b => 2 * acc + b) 0

/-- Loop body of `TimesExpMod.build_composite_bloq`, iterating over the bit
indices `js` with running multiplier `k`: each step adds a `CModMulK` on bit
`e[j]` and register `x`, then squares `k` modulo `N`.  Returns the trace of
added bloqs, the final bit list and the final `x`. -/
def temLoop (N xw : Nat) : List Nat → List Nat → Nat → Nat → List BloqDesc × List Nat × Nat
  | [], ebits, x, _ => ([], ebits, x)
  | j :: js, ebits, x, k =>
    let c := ebits.getD j 0
    let p := cModMulK k N c x
    let r := temLoop N xw js (ebits.set j p.1) p.2 (k * k % N)
    (BloqDesc.cModMulK xw k N :: r.1, r.2)

/-- The `TimesExpMod` bloq of `RSA_GE.py`: `e,x -> e,x*g^e mod N` for classical
`g,N`. -/
structure TimesExpMod where
  g : Nat
  N : Nat
  e_bitsize : Nat
  x_bitsize : Nat
  deriving DecidableEq

/-- `TimesExpMod.build_composite_bloq`: split `e` into bits, reduce `g` mod
`N`, then for `j` from `e_bitsize-1` down to `0` add a
`CModMulK(QUInt(x_bitsize), k=g, mod=N)` controlled on `e[j]`, squaring the
classical constant after each step; finally join the bits back.  Returns the
trace of added bloqs together with the classical values of the two output
registers. -/
def TimesExpMod.build_composite_bloq (b : TimesExpMod) (e x : Nat) :
    List BloqDesc × Nat × Nat :=
  let ebits := splitBE b.e_bitsize e
  let r := temLoop b.N b.x_bitsize ((List.range b.e_bitsize).reverse) ebits x (b.g % b.N)
  (r.1, joinBE r.2.1, r.2.2)

/-- The sequence of classical constants produced by starting at `k` and
squaring modulo `N`, of the given length. -/
def constsFrom (N : Nat) : Nat → Nat → List Nat
  | 0, _ => []
  | r + 1, k => k :: constsFrom N r (k * k % N)

/-- Extract the multiplier constant of a `CModMulK` descriptor. -/
def bloqK : BloqDesc → Nat
  | BloqDesc.cModMulK _ k _ => k
  | _ => 0

/-- The multiplier constants used by the successive controlled modular
multiplications of one `TimesExpMod`, in the order they are emitted. -/
def temConsts (b : TimesExpMod) (e x : Nat) : List Nat :=
  (b.build_composite_bloq e x).1.map bloqK

lemma List.set_getD_self (l : List Nat) : ∀ n, l.set n (l.getD n 0) = l := by
  induction l with
  | nil => intro n; rfl
  | cons a l ih =>
    intro n
    cases n with
    | zero => rfl
    | succ n => simpa using ih n

lemma temLoop_ebits (N xw : Nat) :
    ∀ js ebits x k, (temLoop N xw js ebits x k).2.1 = ebits := by
  intro js
  induction js with
  | nil => intro ebits x k; rfl
  | cons j js ih =>
    intro ebits x k
    simp only [temLoop, cModMulK]
    rw [ih]
    exact List.set_getD_self ebits j

lemma temLoop_trace (N xw : Nat) :
    ∀ js ebits x k, (temLoop N xw js ebits x k).1
      = (constsFrom N js.length k).map (fun kk => BloqDesc.cModMulK xw kk N) := by
  intro js
  induction js with
  | nil => intro ebits x k; rfl
  | cons j js ih =>
    intro ebits x k
    simp only [temLoop, List.length_cons, constsFrom, List.map_cons]
    rw [ih]

lemma constsFrom_pow (N g : Nat) :
    ∀ r s, constsFrom N r (g ^ 2 ^ s % N)
      = (List.range r).map (fun t => g ^ 2 ^ (s + t) % N) := by
  intro r
  induction r with
  | zero => intro s; rfl
  | succ r ih =>
    intro s
    have h2 : 2 ^ s + 2 ^ s = 2 ^ (s + 1) := by rw [pow_succ, mul_two]
    have hsq : g ^ 2 ^ s % N * (g ^ 2 ^ s % N) % N = g ^ 2 ^ (s + 1) % N := by
      rw [← Nat.mul_mod, ← pow_add, h2]
    have htail : List.map (fun t => g ^ 2 ^ (s + 1 + t) % N) (List.range r)
        = List.map ((fun t => g ^ 2 ^ (s + t) % N) ∘ Nat.succ) (List.range r) := by
      refine List.map_congr_left ?_
      intro t _
      simp only [Function.comp_apply, Nat.succ_eq_add_one]
      have h3 : s + 1 + t = s + (t + 1) := by omega
      rw [h3]
    rw [constsFrom, hsq, ih (s + 1), List.range_succ_eq_map, List.map_cons, List.map_map,
      htail]
    simp

lemma splitBE_getD (w e j : Nat) (h : j < w) :
    (splitBE w e).getD j 0 = e / 2 ^ (w - 1 - j) % 2 := by
  simp [splitBE, List.getD_eq_getElem?_getD, List.getElem?_map, List.getElem?_range h]

lemma splitBE_succ (w e : Nat) :
    splitBE (w + 1) e = (e / 2 ^ w % 2) :: splitBE w e := by
  simp only [splitBE, List.range_succ_eq_map, List.map_cons, List.map_map, Nat.sub_zero,
    Nat.add_sub_cancel]
  refine congrArg₂ List.cons rfl ?_
  refine List.map_congr_left ?_
  intro t _
  simp only [Function.comp_apply, Nat.succ_eq_add_one]
  have h3 : w - (t + 1) = w - 1 - t := by omega
  rw [h3]

lemma joinBE_foldl_acc : ∀ (bits : List Nat) (a : Nat),
    List.foldl (fun acc b => 2 * acc + b) a bits
      = a * 2 ^ bits.length + joinBE bits := by
  intro bits
  induction bits with
  | nil => intro a; simp [joinBE]
  | cons b bits ih =>
    intro a
    simp only [List.foldl_cons, joinBE, List.length_cons]
    rw [ih (2 * a + b), ih (2 * 0 + b)]
    ring

lemma splitBE_length (w e : Nat) : (splitBE w e).length = w := by
  simp [splitBE]

lemma joinBE_splitBE (w e : Nat) : joinBE (splitBE w e) = e % 2 ^ w := by
  induction w with
  | zero => simp [splitBE, joinBE, Nat.mod_one]
  | succ w ih =>
    rw [splitBE_succ, joinBE, List.foldl_cons]
    have hstep : List.foldl (fun acc b => 2 * acc + b) (2 * 0 + e / 2 ^ w % 2) (splitBE w e)
        = (2 * 0 + e / 2 ^ w % 2) * 2 ^ (splitBE w e).length + joinBE (splitBE w e) :=
      joinBE_foldl_acc (splitBE w e) (2 * 0 + e / 2 ^ w % 2)
    rw [hstep, splitBE_length, ih]
    have hmod : e % 2 ^ (w + 1) = e % 2 ^ w + 2 ^ w * (e / 2 ^ w % 2) := by
      have h2 : (2 : Nat) ^ (w + 1) = 2 ^ w * 2 := by rw [pow_succ]
      rw [h2, Nat.mod_mul]
    have hc : (2 * 0 + e / 2 ^ w % 2) * 2 ^ w = 2 ^ w * (e / 2 ^ w % 2) := by ring
    rw [hc]
    omega

lemma temLoop_x_eq (N xw w e : Nat) (hN : 0 < N) :
    ∀ r, r ≤ w → ∀ x k, x < N →
      (temLoop N xw ((List.range r).reverse) (splitBE w e) x k).2.2
        = x * k ^ (e / 2 ^ (w - r) % 2 ^ r) % N := by
  intro r
  induction r with
  | zero =>
    intro _ x k hx
    simp only [List.range_zero, List.reverse_nil, temLoop]
    rw [pow_zero, Nat.mod_one, pow_zero, mul_one, Nat.mod_eq_of_lt hx]
  | succ r ih =>
    intro hrw x k hx
    have hrlt : r < w := by omega
    have hrev : (List.range (r + 1)).reverse = r :: (List.range r).reverse := by
      rw [List.range_succ, List.reverse_append]
      rfl
    rw [hrev]
    simp only [temLoop, cModMulK]
    rw [List.set_getD_self, splitBE_getD w e r hrlt]
    have hw1 : w - (r + 1) = w - 1 - r := by omega
    rw [hw1]
    have hdiv : e / 2 ^ (w - 1 - r) / 2 = e / 2 ^ (w - r) := by
      rw [Nat.div_div_eq_div_mul, ← pow_succ]
      have h5 : w - 1 - r + 1 = w - r := by omega
      rw [h5]
    have hsplit2 : e / 2 ^ (w - 1 - r) % 2 ^ (r + 1)
        = e / 2 ^ (w - 1 - r) % 2 + 2 * (e / 2 ^ (w - r) % 2 ^ r) := by
      have h21 : (2 : Nat) ^ (r + 1) = 2 * 2 ^ r := by rw [pow_succ]; ring
      rw [h21, Nat.mod_mul, hdiv]
    rcases Nat.mod_two_eq_zero_or_one (e / 2 ^ (w - 1 - r)) with hb | hb
    · have hcond : ¬ (e / 2 ^ (w - 1 - r) % 2 = 1 ∧ x < N) := by
        intro hcontra
        omega
      rw [if_neg hcond, ih (by omega) x (k * k % N) hx, hsplit2, hb]
      have key0 : x * (k * k % N) ^ (e / 2 ^ (w - r) % 2 ^ r) % N
          = x * k ^ (0 + 2 * (e / 2 ^ (w - r) % 2 ^ r)) % N := by
        rw [Nat.mul_mod x ((k * k % N) ^ (e / 2 ^ (w - r) % 2 ^ r)) N, ← Nat.pow_mod,
          ← Nat.mul_mod]
        congr 1
        ring
      exact key0
    · have hcond : e / 2 ^ (w - 1 - r) % 2 = 1 ∧ x < N := ⟨hb, hx⟩
      rw [if_pos hcond, ih (by omega) (x * k % N) (k * k % N) (Nat.mod_lt _ hN), hsplit2, hb]
      have key1 : x * k % N * (k * k % N) ^ (e / 2 ^ (w - r) % 2 ^ r) % N
          = x * k ^ (1 + 2 * (e / 2 ^ (w - r) % 2 ^ r)) % N := by
        rw [Nat.mod_mul_mod,
          Nat.mul_mod (x * k) ((k * k % N) ^ (e / 2 ^ (w - r) % 2 ^ r)) N, ← Nat.pow_mod,
          ← Nat.mul_mod]
        congr 1
        ring
      exact key1

lemma temTrace_eq (g N w xw e x : Nat) :
    (TimesExpMod.build_composite_bloq ⟨g, N, w, xw⟩ e x).1
      = ((List.range w).reverse).map
          (fun j => BloqDesc.cModMulK xw (g ^ 2 ^ (w - 1 - j) % N) N) := by
  show (temLoop N xw ((List.range w).reverse) (splitBE w e) x (g % N)).1 = _
  rw [temLoop_trace]
  have hlen : ((List.range w).reverse).length = w := by simp
  rw [hlen]
  have hstart : g % N = g ^ 2 ^ 0 % N := by simp
  rw [hstart, constsFrom_pow, List.map_map]
  conv_rhs => rw [List.range_eq_range', List.reverse_range', List.map_map]
  refine List.map_congr_left ?_
  intro t ht
  have htw : t < w := List.mem_range.mp ht
  simp only [Function.comp_apply]
  have h6 : 0 + w - 1 - t = w - 1 - t := by omega
  rw [h6]
  have h7 : w - 1 - (w - 1 - t) = t := by omega
  rw [h7, Nat.zero_add]

/-- C1: for modulus `N ≥ 2`, base `g` and `e_bitsize ≥ 1`,
`TimesExpMod(g, N, e_bitsize, x_bitsize).build_composite_bloq` adds, for `j`
from `e_bitsize-1` down to `0`, a controlled modular multiplication of `x` by
the constant `g^(2^(e_bitsize-1-j)) mod N` controlled on bit `e[j]`, and the
emitted block maps `(e, x)` to `(e, x * g^e mod N)` with the `e` register
returned unchanged. -/
theorem timesExpMod_build_correct (g N w xw e x : Nat)
    (hN : 2 ≤ N) (hw : 1 ≤ w) (he : e < 2 ^ w) (hx : x < N) :
    (TimesExpMod.build_composite_bloq ⟨g, N, w, xw⟩ e x).1
        = ((List.range w).reverse).map
            (fun j => BloqDesc.cModMulK xw (g ^ 2 ^ (w - 1 - j) % N) N)
    ∧ (TimesExpMod.build_composite_bloq ⟨g, N, w, xw⟩ e x).2.1 = e
    ∧ (TimesExpMod.build_composite_bloq ⟨g, N, w, xw⟩ e x).2.2 = x * g ^ e % N := by
  refine ⟨temTrace_eq g N w xw e x, ?_, ?_⟩
  · show joinBE (temLoop N xw ((List.range w).reverse) (splitBE w e) x (g % N)).2.1 = e
    rw [temLoop_ebits, joinBE_splitBE, Nat.mod_eq_of_lt he]
  · show (temLoop N xw ((List.range w).reverse) (splitBE w e) x (g % N)).2.2
        = x * g ^ e % N
    rw [temLoop_x_eq N xw w e (by omega) w (le_refl w) x (g % N) hx]
    rw [Nat.sub_self, pow_zero, Nat.div_one, Nat.mod_eq_of_lt he]
    rw [Nat.mul_mod x ((g % N) ^ e) N, ← Nat.pow_mod, ← Nat.mul_mod]

/-- Witness for `timesExpMod_build_correct` at `g=7, N=15, e_bitsize=3,
x_bitsize=4, e=5, x=2`. -/
theorem timesExpMod_build_correct_witness :
    2 ≤ 15 ∧ 1 ≤ 3 ∧ 5 < 2 ^ 3 ∧ 2 < 15 ∧
      (TimesExpMod.build_composite_bloq ⟨7, 15, 3, 4⟩ 5 2).2.2 = 2 * 7 ^ 5 % 15 :=
  ⟨by decide, by decide, by decide, by decide,
    (timesExpMod_build_correct 7 15 3 4 5 2 (by decide) (by decide) (by decide)
      (by decide)).2.2⟩

lemma temConsts_eq (g N w xw e x : Nat) :
    temConsts ⟨g, N, w, xw⟩ e x = constsFrom N w (g % N) := by
  show ((temLoop N xw ((List.range w).reverse) (splitBE w e) x (g % N)).1).map bloqK = _
  rw [temLoop_trace]
  have hlen : ((List.range w).reverse).length = w := by simp
  rw [hlen, List.map_map]
  exact List.map_id'' (fun a => rfl) _

lemma constsFrom_getD_zero (N k r : Nat) (h : 1 ≤ r) :
    (constsFrom N r k).getD 0 0 = k := by
  cases r with
  | zero => omega
  | succ r => rfl

lemma constsFrom_getD_succ (N : Nat) :
    ∀ r k t, t + 1 < r →
      (constsFrom N r k).getD (t + 1) 0 = ((constsFrom N r k).getD t 0) ^ 2 % N := by
  intro r
  induction r with
  | zero => intro k t h; omega
  | succ r ih =>
    intro k t h
    cases t with
    | zero =>
      cases r with
      | zero => omega
      | succ r2 =>
        simp only [constsFrom, List.getD_cons_succ, List.getD_cons_zero]
        rw [pow_two]
    | succ t =>
      simp only [constsFrom, List.getD_cons_succ]
      exact ih (k * k % N) t (by omega)

/-- C5: within one `TimesExpMod`, the sequence of classical multiplier
constants used by the successive controlled modular multiplications starts at
`g mod N` and each bit position's constant is the modular square of the
previous bit position's constant. -/
theorem timesExpMod_consts_squares (g N w xw e x : Nat) :
    (1 ≤ w → (temConsts ⟨g, N, w, xw⟩ e x).getD 0 0 = g % N) ∧
    ∀ t, t + 1 < w →
      (temConsts ⟨g, N, w, xw⟩ e x).getD (t + 1) 0
        = ((temConsts ⟨g, N, w, xw⟩ e x).getD t 0) ^ 2 % N := by
  rw [temConsts_eq]
  constructor
  · intro hw
    exact constsFrom_getD_zero N (g % N) w hw
  · intro t ht
    exact constsFrom_getD_succ N w (g % N) t ht

/-- Witness for `timesExpMod_consts_squares` at `g=7, N=15, e_bitsize=3`. -/
theorem timesExpMod_consts_squares_witness :
    0 + 1 < 3 ∧ (temConsts ⟨7, 15, 3, 4⟩ 0 0).getD 1 0
      = ((temConsts ⟨7, 15, 3, 4⟩ 0 0).getD 0 0) ^ 2 % 15 :=
  ⟨by decide, (timesExpMod_consts_squares 7 15 3 4 0 0).2 0 (by decide)⟩

/-- Python `range(0, stop, step)` for a positive step: the multiples of `step`
below `stop`. -/
def rangeStep (stop step : Nat) : List Nat :=
  (List.range ((stop + step - 1) / step)).map (fun t => t * step)

/-- Python `n.bit_length()`, via structurally recursive halving with fuel. -/
def bitLengthAux : Nat → Nat → Nat
  | 0, _ => 0
  | fuel + 1, n => if n = 0 then 0 else bitLengthAux fuel (n / 2) + 1

/-- Python `n.bit_length()`: the number of bits needed to represent `n`, with
`bitLength 0 = 0`. -/
def bitLength (n : Nat) : Nat := bitLengthAux n n

/-- The `RSA_GE` bloq of `RSA_GE.py`: `e,x -> e,x*g^e mod N` for an RSA
integer `N`, base `g`, exponent window size `ew` and multiplication window
size `mw`. -/
structure RSA_GE where
  N : Nat
  g : Nat
  ew : Nat
  mw : Nat
  deriving DecidableEq

/-- `self.N_bitsize` as stored by `RSA_GE.__init__`. -/
def RSA_GE.N_bitsize (s : RSA_GE) : Nat := bitLength s.N

/-- A framework register: name and `QUInt` bit width. -/
structure Register where
  name : String
  dtype : Nat
  deriving DecidableEq

/-- `RSA_GE.signature`: `[Register('ew', QUInt(ew)), Register('x',
QUInt(N.bit_length()))]`. -/
def RSA_GE.signature (s : RSA_GE) : List Register :=
  [⟨"ew", s.ew⟩, ⟨"x", s.N_bitsize⟩]

/-- The `SemiclassicalQFT` bloq of `RSA_GE.py`: `n` total qubits, `m` measured
qubits in each part, `i`-th part. -/
structure SemiclassicalQFT where
  n : Nat
  m : Nat
  i : Nat
  deriving DecidableEq

/-- `SemiclassicalQFT.signature`: `[Register('m', QUInt(m))]`. -/
def SemiclassicalQFT.signature (b : SemiclassicalQFT) : List Register :=
  [⟨"m", b.m⟩]

/-- `TimesExpMod.signature`: `[Register('e', QUInt(e_bitsize)), Register('x',
QUInt(x_bitsize))]`. -/
def TimesExpMod.signature (b : TimesExpMod) : List Register :=
  [⟨"e", b.e_bitsize⟩, ⟨"x", b.x_bitsize⟩]

/-- One iteration of the window loop of `RSA_GE.ekera_hastad_component` at
window start `i`.  The state is `(fresh soquet counter, exponent-window
soquet, x soquet, emitted trace)`.  A `TimesExpMod` with constant
`g^(2^(e_bitsize-1-i)) mod N` is added only when the slice
`e_bits[i:i+ew]` has exactly `ew` elements, i.e. `min ew (e_bitsize - i) =
ew`; a `SemiclassicalQFT(e_bitsize, ew, i)` is always added on the window
soquet. -/
def windowStep (N nb ewS ebs g : Nat) (st : Nat × Nat × Nat × List BloqDesc) (i : Nat) :
    Nat × Nat × Nat × List BloqDesc :=
  let gi := g ^ 2 ^ (ebs - 1 - i) % N
  let wlen := min ewS (ebs - i)
  let st2 := if wlen = ewS
    then (st.1 + 2, st.1, st.1 + 1, st.2.2.2 ++ [BloqDesc.timesExpMod gi N wlen nb])
    else st
  (st2.1 + 1, st2.1, st2.2.2.1, st2.2.2.2 ++ [BloqDesc.semiclassicalQFT ebs ewS i])

/-- `RSA_GE.ekera_hastad_component`: loop over window starts
`i = 0, ew, 2*ew, ...` below `e_bitsize`, returning the final
`(fresh counter, ew soquet, x soquet, trace)`. -/
def RSA_GE.ekera_hastad_component (s : RSA_GE) (g ebs fresh sew sx : Nat) :
    Nat × Nat × Nat × List BloqDesc :=
  (rangeStep ebs s.ew).foldl (windowStep s.N s.N_bitsize s.ew ebs g) (fresh, sew, sx, [])

/-- `RSA_GE.build_composite_bloq`: print three diagnostic lines, run the first
Ekera-Hastad component with base `g` and exponent bitsize `2*(N_bitsize//2+1)`,
then the second with base `pow(g, N+1, N)` and exponent bitsize
`(N_bitsize//2+1)//1`, and return the dict `{'ew': ew, 'x': x}`.  The result
collects the print lines, the emitted trace and the returned Python value. -/
def RSA_GE.build_composite_bloq (s : RSA_GE) (fresh sew sx : Nat) :
    List PrintLine × List BloqDesc × PyRet :=
  let nb := s.N_bitsize
  let m := nb / 2 + 1
  let e1_bitsize := 2 * m
  let r1 := s.ekera_hastad_component s.g e1_bitsize fresh sew sx
  let s1 := 1
  let e2_bitsize := m / s1
  let y := s.g ^ (s.N + 1) % s.N
  let r2 := s.ekera_hastad_component y e2_bitsize r1.1 r1.2.1 r1.2.2.1
  ([PrintLine.bitsizeOf s.N nb, PrintLine.firstComp e1_bitsize,
      PrintLine.secondComp e2_bitsize],
    r1.2.2.2 ++ r2.2.2.2,
    PyRet.dict [("ew", r2.2.1), ("x", r2.2.2.1)])

/-- An `bb.add` call recorded with the soquets passed as inputs. -/
structure AddCall where
  bloq : BloqDesc
  inputs : List Nat
  deriving DecidableEq

/-- `SemiclassicalQFT.build_composite_bloq`: evaluates
`m = bb.add(Identity(self.m))` - an `Identity` added with no input soquets -
and then `return {'m', m}`, a Python set literal holding the string `'m'` and
the soquet freshly produced by the add. -/
def SemiclassicalQFT.build_composite_bloq (b : SemiclassicalQFT) (fresh _sm : Nat) :
    AddCall × PyRet :=
  (⟨BloqDesc.identity b.m, []⟩, PyRet.set [PyElem.str "m", PyElem.soq fresh])

/-- Possible outcomes of a Python call to `with_recycling`: return of the
`NotImplemented` sentinel, return of a usable recycled bloq, or a raised
exception. -/
inductive RecyclingResult where
  | notImplementedSentinel
  | recycledBloq (b : BloqDesc)
  | raised (msg : String)
  deriving DecidableEq

/-- `SemiclassicalQFT.with_recycling`: `return NotImplemented`. -/
def SemiclassicalQFT.with_recycling (_b : SemiclassicalQFT) : RecyclingResult :=
  RecyclingResult.notImplementedSentinel

/-- Predicate picking out `timesExpMod` descriptors. -/
def isTimesExpMod : BloqDesc → Bool
  | BloqDesc.timesExpMod _ _ _ _ => true
  | _ => false

/-- The window-loop trace as the specification describes it: for each window
start `i`, a `TimesExpMod` with base `g^(2^(e_bitsize-1-i)) mod N` batching
exactly `ew` bits whenever the window is full (`i + ew ≤ e_bitsize`), always
followed by one `SemiclassicalQFT(e_bitsize, ew, i)`. -/
def ekeraSpecTrace (N nb g ebs ewS : Nat) : List BloqDesc :=
  (rangeStep ebs ewS).flatMap fun i =>
    (if i + ewS ≤ ebs
      then [BloqDesc.timesExpMod (g ^ 2 ^ (ebs - 1 - i) % N) N ewS nb] else [])
    ++ [BloqDesc.semiclassicalQFT ebs ewS i]

/-- The bloqs emitted by one window iteration, as computed by the source loop
(slice length written as `min ew (e_bitsize - i)`). -/
def windowBlock (N nb ewS ebs g i : Nat) : List BloqDesc :=
  (if min ewS (ebs - i) = ewS
    then [BloqDesc.timesExpMod (g ^ 2 ^ (ebs - 1 - i) % N) N (min ewS (ebs - i)) nb]
    else [])
  ++ [BloqDesc.semiclassicalQFT ebs ewS i]

lemma windowStep_trace (N nb ewS ebs g : Nat) (st : Nat × Nat × Nat × List BloqDesc)
    (i : Nat) :
    (windowStep N nb ewS ebs g st i).2.2.2 = st.2.2.2 ++ windowBlock N nb ewS ebs g i := by
  unfold windowStep windowBlock
  by_cases h : min ewS (ebs - i) = ewS
  · simp [h, List.append_assoc]
  · simp [h]

lemma foldl_windowStep_trace (N nb ewS ebs g : Nat) :
    ∀ (l : List Nat) (st : Nat × Nat × Nat × List BloqDesc),
      (l.foldl (windowStep N nb ewS ebs g) st).2.2.2
        = st.2.2.2 ++ l.flatMap (windowBlock N nb ewS ebs g) := by
  intro l
  induction l with
  | nil => intro st; simp
  | cons i l ih =>
    intro st
    rw [List.foldl_cons, ih, List.flatMap_cons, windowStep_trace, List.append_assoc]

lemma mem_rangeStep_lt (ebs ewS i : Nat) (hew : 1 ≤ ewS) (hi : i ∈ rangeStep ebs ewS) :
    i < ebs := by
  rcases List.mem_map.mp hi with ⟨t, ht, rfl⟩
  have htlt : t < (ebs + ewS - 1) / ewS := List.mem_range.mp ht
  have h1 : (t + 1) * ewS ≤ ebs + ewS - 1 :=
    (Nat.le_div_iff_mul_le (by omega : 0 < ewS)).mp (by omega)
  have hexp : (t + 1) * ewS = t * ewS + ewS := by ring
  omega

lemma ekera_trace_eq (N g0 ew mw g ebs fresh sew sx : Nat) (hew : 1 ≤ ew) :
    ((RSA_GE.mk N g0 ew mw).ekera_hastad_component g ebs fresh sew sx).2.2.2
      = ekeraSpecTrace N (bitLength N) g ebs ew := by
  show ((rangeStep ebs ew).foldl (windowStep N (bitLength N) ew ebs g)
      (fresh, sew, sx, [])).2.2.2 = _
  rw [foldl_windowStep_trace]
  unfold ekeraSpecTrace
  rw [List.nil_append]
  refine List.flatMap_congr ?_
  intro i hi
  have hilt : i < ebs := mem_rangeStep_lt ebs ew i hew hi
  unfold windowBlock
  by_cases h : i + ew ≤ ebs
  · have hmin : min ew (ebs - i) = ew := by omega
    rw [if_pos h, if_pos hmin, hmin]
  · have hmin : ¬ min ew (ebs - i) = ew := by omega
    rw [if_neg h, if_neg hmin]

/-- C6: for every component call of `ekera_hastad_component` with base `g` and
exponent bitsize `e_bitsize`, the emitted sub-circuit sequence is fixed and
alternating: for each window start `i = 0, ew, 2*ew, ...` below `e_bitsize`, a
`TimesExpMod` with base `g^(2^(e_bitsize-1-i)) mod N` is added whenever the
window is full (has exactly `ew` bits), and it is always followed by one
`SemiclassicalQFT(e_bitsize, ew, i)` on the `ew`-qubit register. -/
theorem ekera_component_fixed_sequence (N g0 ew mw g ebs fresh sew sx : Nat)
    (hew : 1 ≤ ew) :
    ((RSA_GE.mk N g0 ew mw).ekera_hastad_component g ebs fresh sew sx).2.2.2
      = ekeraSpecTrace N (bitLength N) g ebs ew :=
  ekera_trace_eq N g0 ew mw g ebs fresh sew sx hew

/-- Witness for `ekera_component_fixed_sequence` at `N=15, ew=2, e_bitsize=5`. -/
theorem ekera_component_fixed_sequence_witness :
    1 ≤ 2 ∧ ((RSA_GE.mk 15 7 2 3).ekera_hastad_component 7 5 2 0 1).2.2.2
      = ekeraSpecTrace 15 (bitLength 15) 7 5 2 :=
  ⟨by decide, ekera_component_fixed_sequence 15 7 2 3 7 5 2 0 1 (by decide)⟩

/-- Counterexample to C3: with `e_bitsize = 3` and `ew = 2` there are two
windows, `i = 0` and `i = 2`, but the final partial window `i = 2` adds no
`TimesExpMod` at all: the whole component trace contains exactly one
controlled-multiplication step, so bit position 2 is consumed by none. -/
theorem ekera_partial_window_cex :
    rangeStep 3 2 = [0, 2]
    ∧ ((RSA_GE.mk 15 7 2 3).ekera_hastad_component 7 3 2 0 1).2.2.2
        = [BloqDesc.timesExpMod 1 15 2 4, BloqDesc.semiclassicalQFT 3 2 0,
            BloqDesc.semiclassicalQFT 3 2 2]
    ∧ (((RSA_GE.mk 15 7 2 3).ekera_hastad_component 7 3 2 0 1).2.2.2).countP
        isTimesExpMod = 1 := by
  decide

/-- C3 amended: the windowed loop adds a `TimesExpMod` batching the `ew`
exponent bits of a window exactly for the full windows (`i + ew ≤ e_bitsize`);
a final partial window, when `ew` does not divide `e_bitsize`, adds no
controlled multiplication, so only the bit positions of full windows are
consumed. -/
theorem ekera_full_windows_only (N g0 ew mw g ebs fresh sew sx : Nat) (hew : 1 ≤ ew) :
    (∀ i, i ∈ rangeStep ebs ew → i + ew ≤ ebs →
      BloqDesc.timesExpMod (g ^ 2 ^ (ebs - 1 - i) % N) N ew (bitLength N)
        ∈ ((RSA_GE.mk N g0 ew mw).ekera_hastad_component g ebs fresh sew sx).2.2.2) ∧
    (∀ b, b ∈ ((RSA_GE.mk N g0 ew mw).ekera_hastad_component g ebs fresh sew sx).2.2.2 →
      isTimesExpMod b = true →
      ∃ i, i ∈ rangeStep ebs ew ∧ i + ew ≤ ebs ∧
        b = BloqDesc.timesExpMod (g ^ 2 ^ (ebs - 1 - i) % N) N ew (bitLength N)) := by
  rw [ekera_trace_eq N g0 ew mw g ebs fresh sew sx hew]
  constructor
  · intro i hi hfull
    refine List.mem_flatMap.mpr ⟨i, hi, ?_⟩
    rw [if_pos hfull]
    simp
  · intro b hb hTEM
    rcases List.mem_flatMap.mp hb with ⟨i, hi, hbi⟩
    by_cases hfull : i + ew ≤ ebs
    · rw [if_pos hfull] at hbi
      simp only [List.cons_append, List.nil_append, List.mem_cons,
        List.not_mem_nil, or_false] at hbi
      rcases hbi with h1 | h1
      · exact ⟨i, hi, hfull, h1⟩
      · rw [h1] at hTEM
        cases hTEM
    · rw [if_neg hfull] at hbi
      simp only [List.nil_append, List.mem_cons, List.not_mem_nil, or_false] at hbi
      rw [hbi] at hTEM
      cases hTEM

/-- Witness for `ekera_full_windows_only` at `N=15, ew=2, e_bitsize=4`,
window `i=0`. -/
theorem ekera_full_windows_only_witness :
    1 ≤ 2 ∧ BloqDesc.timesExpMod (7 ^ 2 ^ 3 % 15) 15 2 (bitLength 15)
      ∈ ((RSA_GE.mk 15 7 2 3).ekera_hastad_component 7 4 2 0 1).2.2.2 :=
  ⟨by decide,
    (ekera_full_windows_only 15 7 2 3 7 4 2 0 1 (by decide)).1 0 (by decide) (by decide)⟩

/-- C2: for every `N ≥ 2`, `g`, `ew ≥ 1` and `mw`,
`RSA_GE(N, g, ew, mw).build_composite_bloq` composes exactly two Ekera-Hastad
components - the first with base `g` and exponent bitsize `2*(n//2+1)` where
`n = N.bit_length()`, the second with base `g^(N+1) mod N` and exponent
bitsize `n//2+1` - and returns a dict mapping `'ew'` and `'x'` to the
resulting soquets. -/
theorem rsa_ge_two_components (N g ew mw fresh sew sx : Nat) (hN : 2 ≤ N)
    (hew : 1 ≤ ew) :
    (∃ v1 v2, (RSA_GE.build_composite_bloq ⟨N, g, ew, mw⟩ fresh sew sx).2.2
        = PyRet.dict [("ew", v1), ("x", v2)]) ∧
    (RSA_GE.build_composite_bloq ⟨N, g, ew, mw⟩ fresh sew sx).2.1
      = ekeraSpecTrace N (bitLength N) g (2 * (bitLength N / 2 + 1)) ew
          ++ ekeraSpecTrace N (bitLength N) (g ^ (N + 1) % N) (bitLength N / 2 + 1) ew := by
  constructor
  · exact ⟨_, _, rfl⟩
  · show ((RSA_GE.mk N g ew mw).ekera_hastad_component g (2 * (bitLength N / 2 + 1))
        fresh sew sx).2.2.2
      ++ ((RSA_GE.mk N g ew mw).ekera_hastad_component (g ^ (N + 1) % N)
            ((bitLength N / 2 + 1) / 1)
            ((RSA_GE.mk N g ew mw).ekera_hastad_component g (2 * (bitLength N / 2 + 1))
              fresh sew sx).1
            ((RSA_GE.mk N g ew mw).ekera_hastad_component g (2 * (bitLength N / 2 + 1))
              fresh sew sx).2.1
            ((RSA_GE.mk N g ew mw).ekera_hastad_component g (2 * (bitLength N / 2 + 1))
              fresh sew sx).2.2.1).2.2.2
      = _
    rw [Nat.div_one]
    have h1 := ekera_trace_eq N g ew mw g (2 * (bitLength N / 2 + 1)) fresh sew sx hew
    have h2 := fun fr se sxx =>
      ekera_trace_eq N g ew mw (g ^ (N + 1) % N) (bitLength N / 2 + 1) fr se sxx hew
    rw [h1, h2]

/-- Witness for `rsa_ge_two_components` at `N=15, g=7, ew=2, mw=3`. -/
theorem rsa_ge_two_components_witness :
    2 ≤ 15 ∧ 1 ≤ 2 ∧
      (RSA_GE.build_composite_bloq ⟨15, 7, 2, 3⟩ 2 0 1).2.1
        = ekeraSpecTrace 15 (bitLength 15) 7 (2 * (bitLength 15 / 2 + 1)) 2
            ++ ekeraSpecTrace 15 (bitLength 15) (7 ^ (15 + 1) % 15)
                (bitLength 15 / 2 + 1) 2 :=
  ⟨by decide, by decide, (rsa_ge_two_components 15 7 2 3 2 0 1 (by decide) (by decide)).2⟩

/-- C7: each of the three classes declares a fixed register shape determined
only by its constructor arguments: `RSA_GE(N, g, ew, mw)` has registers
`('ew', QUInt(ew))` and `('x', QUInt(N.bit_length()))`;
`SemiclassicalQFT(n, m, i)` has register `('m', QUInt(m))`;
`TimesExpMod(g, N, e_bitsize, x_bitsize)` has registers
`('e', QUInt(e_bitsize))` and `('x', QUInt(x_bitsize))`. -/
theorem signatures_fixed (N g ew mw n m i g2 N2 eb xb : Nat) :
    RSA_GE.signature ⟨N, g, ew, mw⟩
        = [Register.mk "ew" ew, Register.mk "x" (bitLength N)]
    ∧ SemiclassicalQFT.signature ⟨n, m, i⟩ = [Register.mk "m" m]
    ∧ TimesExpMod.signature ⟨g2, N2, eb, xb⟩
        = [Register.mk "e" eb, Register.mk "x" xb] :=
  ⟨rfl, rfl, rfl⟩

/-- Counterexample to C8: `RSA_GE(8633, 7, 3, 2).build_composite_bloq` writes
three diagnostic lines to standard output, so it is not free of output-stream
writes. -/
theorem rsa_ge_prints_cex :
    (RSA_GE.build_composite_bloq ⟨8633, 7, 3, 2⟩ 2 0 1).1
      = [PrintLine.bitsizeOf 8633 14, PrintLine.firstComp 16, PrintLine.secondComp 8]
    ∧ (RSA_GE.build_composite_bloq ⟨8633, 7, 3, 2⟩ 2 0 1).1 ≠ ([] : List PrintLine) := by
  decide

/-- C8 amended: building the composite circuit writes exactly three diagnostic
print lines (the bitsize of `N` and the two component bitsizes) to standard
output; apart from that output the builder is a pure function of its
arguments producing the composite-circuit data. -/
theorem rsa_ge_prints_diagnostics (N g ew mw fresh sew sx : Nat) :
    (RSA_GE.build_composite_bloq ⟨N, g, ew, mw⟩ fresh sew sx).1
      = [PrintLine.bitsizeOf N (bitLength N),
          PrintLine.firstComp (2 * (bitLength N / 2 + 1)),
          PrintLine.secondComp (bitLength N / 2 + 1)] := by
  show [PrintLine.bitsizeOf N (bitLength N),
      PrintLine.firstComp (2 * (bitLength N / 2 + 1)),
      PrintLine.secondComp ((bitLength N / 2 + 1) / 1)] = _
  rw [Nat.div_one]

/-- C9: the multiplication window size `mw` does not influence the constructed
circuit: two instances differing only in `mw` have identical signatures and
their `build_composite_bloq` produces identical print lines, traces and
return values. -/
theorem rsa_ge_mw_noninterference (N g ew mw1 mw2 fresh sew sx : Nat) :
    RSA_GE.signature ⟨N, g, ew, mw1⟩ = RSA_GE.signature ⟨N, g, ew, mw2⟩
    ∧ RSA_GE.build_composite_bloq ⟨N, g, ew, mw1⟩ fresh sew sx
        = RSA_GE.build_composite_bloq ⟨N, g, ew, mw2⟩ fresh sew sx :=
  ⟨rfl, rfl⟩

/-- Predicate picking out dict return values. -/
def isDict : PyRet → Bool
  | PyRet.dict _ => true
  | _ => false

/-- C4 (code bug): `SemiclassicalQFT(1, 1, 0).build_composite_bloq` returns the
Python set literal `{'m', m}` - not a dict mapping `'m'` to a soquet - and its
`Identity` placeholder is added with no input soquets, so it is not wired to
the input `m` register. -/
theorem semiclassicalQFT_build_returns_set :
    isDict (SemiclassicalQFT.build_composite_bloq ⟨1, 1, 0⟩ 0 0).2 = false
    ∧ (SemiclassicalQFT.build_composite_bloq ⟨1, 1, 0⟩ 0 0).2
        = PyRet.set [PyElem.str "m", PyElem.soq 0]
    ∧ (SemiclassicalQFT.build_composite_bloq ⟨1, 1, 0⟩ 0 0).1.inputs = ([] : List Nat) :=
  ⟨rfl, rfl, rfl⟩

/-- C10: `with_recycling()` on any `SemiclassicalQFT` instance returns the
`NotImplemented` sentinel constant: it never raises an exception and never
returns a usable recycled-qubit variant of the bloq. -/
theorem with_recycling_not_implemented (n m i : Nat) :
    SemiclassicalQFT.with_recycling ⟨n, m, i⟩ = RecyclingResult.notImplementedSentinel
    ∧ (∀ msg, SemiclassicalQFT.with_recycling ⟨n, m, i⟩ ≠ RecyclingResult.raised msg)
    ∧ ∀ b, SemiclassicalQFT.with_recycling ⟨n, m, i⟩ ≠ RecyclingResult.recycledBloq b :=
  ⟨rfl, fun _ h => RecyclingResult.noConfusion h, fun _ h => RecyclingResult.noConfusion h⟩

/-- Witness for `with_recycling_not_implemented` at `n=1, m=1, i=0`. -/
theorem with_recycling_not_implemented_witness :
    SemiclassicalQFT.with_recycling ⟨1, 1, 0⟩ = RecyclingResult.notImplementedSentinel :=
  (with_recycling_not_implemented 1 1 0).1
